import Mathlib

/-!
Verification of the IPC debugging tools core (diagnostics engine, IPC
channels, worker send-step) as a shallow embedding.

Modelling conventions, fixed once for the whole file:
* time stamps are rationals (seconds since an arbitrary origin);
* a payload string is identified with its byte encoding, a `List Nat` of
  byte values, so `encode` is the identity and the 256-byte shared buffer
  is a `List Nat` of length 256;
* Python dicts are insertion-ordered association lists with unique keys
  (`graphAdd` / `assocSet` update in place, append new keys at the end,
  `pop` deletes the key), Python sets of small ints are duplicate-free
  lists in insertion order;
* the recursive DFS of `check_deadlock` terminates because `visited` only
  grows; in Lean it carries a fuel argument, and `totalFuel` (number of
  keys plus number of edges plus one) bounds the recursion depth, which
  never exceeds the number of distinct nodes plus one, so the fuelled
  function agrees with the Python original on every input;
* `multiprocessing` primitives are modelled by their documented sequential
  semantics: an `Event` is a `Bool`, `Event.wait` returns the flag, a
  `Connection` pair from `mp.Pipe` delivers the sent objects first-in
  first-out, a `Queue` is a FIFO list; lock contention on the non-blocking
  `acquire(block=False)` probe in `SharedMemoryChannel.recv` is an input
  `lockFree : Bool` (`true` when the probe succeeds, as it always does in
  single-threaded use), and `time.sleep` has no effect on the modelled
  state.
-/

namespace IPCTools

/-! ## Diagnostics (src/diagnostics.py) -/

/-- The wait-for graph `Diagnostics.wait_graph`: an insertion-ordered
association list from waiting pid to the list of owner pids it waits on
(a Python `defaultdict(set)` whose values are always non-empty). -/
abbrev WaitGraph := List (Nat × List Nat)

/-- Embedding of `self.wait_graph.get(node, [])`. -/
def graphGet (g : WaitGraph) (n : Nat) : List Nat :=
  match g.lookup n with
  | some s => s
  | none => []

/-- Embedding of `self.wait_graph[waiter].add(owner)` on a `defaultdict(set)`:
update the existing key in place (adding `owner` only if absent), or append
a fresh key at the end. -/
def graphAdd (g : WaitGraph) (w o : Nat) : WaitGraph :=
  match g with
  | [] => [(w, [o])]
  | (k, s) :: rest =>
    if k = w then (k, if o ∈ s then s else s ++ [o]) :: rest
    else (k, s) :: graphAdd rest w o

/-- Embedding of `self.wait_graph.pop(waiter, None)`. -/
def graphPop (g : WaitGraph) (w : Nat) : WaitGraph :=
  g.filter fun kv => decide (kv.1 ≠ w)

/-- One step of the `for neigh in ...` loop of `dfs`: once a cycle has been
found the remaining neighbours are skipped (the Python loop returns early),
otherwise the recursive call `rec` is made on the neighbour with the
`visited` set accumulated so far. -/
def dfsStep (rec : Nat → List Nat → Option (List Nat) × List Nat)
    (acc : Option (List Nat) × List Nat) (neigh : Nat) :
    Option (List Nat) × List Nat :=
  match acc with
  | (some c, v) => (some c, v)
  | (none, v) => rec neigh v

/-- Embedding of the inner `dfs(node)` of `Diagnostics.check_deadlock`:
if `node` is on the current recursion path, report the cycle
`path[path.index(node):] + [node]`; if already visited, fail; otherwise
mark visited, push onto the path and fold over the neighbours.
Returns the found cycle (if any) and the updated `visited` set.
The fuel argument only forces termination; `totalFuel` below always
suffices, so the function agrees with the Python original. -/
def dfs (g : WaitGraph) : Nat → Nat → List Nat → List Nat → Option (List Nat) × List Nat
  | 0, _, visited, _ => (none, visited)
  | fuel + 1, node, visited, path =>
    if node ∈ path then
      (some (path.drop (path.indexOf node) ++ [node]), visited)
    else if node ∈ visited then
      (none, visited)
    else
      (graphGet g node).foldl
        (dfsStep fun neigh v => dfs g fuel neigh v (path ++ [node]))
        (none, node :: visited)

/-- Fuel that always suffices for `dfs`: the recursion depth is bounded by
the number of distinct nodes of the graph plus one. -/
def totalFuel (g : WaitGraph) : Nat :=
  g.length + (g.map fun kv => kv.2.length).sum + 1

/-- The `for n in list(self.wait_graph.keys())` loop of `check_deadlock`:
run `dfs` from every key with a shared `visited` set and an empty path,
stopping at the first cycle found. -/
def findCycleAux (g : WaitGraph) : List Nat → List Nat → Option (List Nat)
  | [], _ => none
  | n :: ns, visited =>
    match dfs g (totalFuel g) n visited [] with
    | (some c, _) => some c
    | (none, v) => findCycleAux g ns v

/-- First cycle reported by `check_deadlock`'s search, if any. -/
def findCycle (g : WaitGraph) : Option (List Nat) :=
  findCycleAux g (g.map Prod.fst) []

/-- The alert string built inside `dfs`:
`f"DEADLOCK: {' → '.join(f'P{p}' for p in cycle)}"`. -/
def cycleString (cyc : List Nat) : String :=
  "DEADLOCK: " ++ String.intercalate " → " (cyc.map fun p => "P" ++ toString p)

/-- The alert value `Diagnostics.check_deadlock` leaves behind: it first
clears `self.alert` and the first cycle found (if any) overwrites it. -/
def deadlockAlert (g : WaitGraph) : String :=
  match findCycle g with
  | some c => cycleString c
  | none => ""

/-- Embedding of dict assignment `self.last_access[pid] = now`: replace in
place if the key exists, else append. -/
def assocSet (l : List (Nat × ℚ)) (k : Nat) (v : ℚ) : List (Nat × ℚ) :=
  match l with
  | [] => [(k, v)]
  | (k', v') :: rest =>
    if k' = k then (k, v) :: rest else (k', v') :: assocSet rest k v

/-- State of the `Diagnostics` object from src/diagnostics.py. -/
structure Diagnostics where
  wait_graph : WaitGraph
  last_access : List (Nat × ℚ)
  alert : String
deriving DecidableEq

/-- `Diagnostics.__init__`. -/
def Diagnostics.init : Diagnostics := ⟨[], [], ""⟩

/-- `Diagnostics.check_deadlock`: recompute `self.alert` from the graph. -/
def Diagnostics.check_deadlock (d : Diagnostics) : Diagnostics :=
  { d with alert := deadlockAlert d.wait_graph }

/-- `Diagnostics.add_wait`: insert the edge, then re-check for deadlock. -/
def Diagnostics.add_wait (d : Diagnostics) (waiter owner : Nat) : Diagnostics :=
  Diagnostics.check_deadlock { d with wait_graph := graphAdd d.wait_graph waiter owner }

/-- `Diagnostics.remove_wait`: drop all of the waiter's outgoing edges,
then re-check for deadlock. -/
def Diagnostics.remove_wait (d : Diagnostics) (waiter : Nat) : Diagnostics :=
  Diagnostics.check_deadlock { d with wait_graph := graphPop d.wait_graph waiter }

/-- `Diagnostics.update_access`: stamp the pid with the current time. -/
def Diagnostics.update_access (d : Diagnostics) (pid : Nat) (now : ℚ) : Diagnostics :=
  { d with last_access := assocSet d.last_access pid now }

/-- The list comprehension of `get_bottlenecks`:
`[p for p,t in self.last_access.items() if now-t>2.0]`. -/
def bottleneckPids (d : Diagnostics) (now : ℚ) : List Nat :=
  (d.last_access.filter fun pt => decide (2 < now - pt.2)).map Prod.fst

/-- `Diagnostics.get_bottlenecks`, with the current time as an argument:
`f"Idle: {...}"` over the idle pids if any, else the empty string. -/
def Diagnostics.get_bottlenecks (d : Diagnostics) (now : ℚ) : String :=
  if (bottleneckPids d now).isEmpty then ""
  else "Idle: " ++
    String.intercalate ", " ((bottleneckPids d now).map fun p => "P" ++ toString p)

/-- An edge of the wait-for graph: `b` is among the owners `a` waits on. -/
def Edge (g : WaitGraph) (a b : Nat) : Prop := b ∈ graphGet g a

/-- The graph contains a directed cycle: a non-empty edge path from some
node back to itself. -/
def HasCycle (g : WaitGraph) : Prop :=
  ∃ a l, List.Chain (Edge g) a (l ++ [a])

/-- Every node occurring in the graph, keys and neighbours alike, with
multiplicity; every node `dfs` is ever called on is in this list. -/
def nodes : WaitGraph → List Nat
  | [] => []
  | (k, s) :: rest => k :: (s ++ nodes rest)

/-- `x` can reach some node that lies on a directed cycle. -/
def ReachCyc (g : WaitGraph) (x : Nat) : Prop :=
  ∃ a, Relation.ReflTransGen (Edge g) x a ∧ ∃ l, List.Chain (Edge g) a (l ++ [a])

/-- `cyc` is a closed edge walk of `g`, written as its vertex list: it
starts and ends at the same node and consecutive entries are edges. -/
def IsCycleList (g : WaitGraph) (cyc : List Nat) : Prop :=
  ∃ a t, cyc = a :: (t ++ [a]) ∧ List.Chain (Edge g) a (t ++ [a])

/-! ## IPC channels (src/ipc_engine.py) -/

/-- The `Message` dataclass: source id, destination id, payload bytes,
send timestamp.  The source is an `Int` because `SharedMemoryChannel`
stores it in a C int initialised to the sentinel `-1`. -/
structure Message where
  src : Int
  dst : Nat
  data : List Nat
  timestamp : ℚ
deriving DecidableEq

/-- `PipeChannel`: built on `mp.Pipe(duplex=False)`, whose two connection
ends form an OS-level byte pipe; objects written by `send` on the write end
are delivered by `poll`/`recv` on the read end first-in first-out, so the
state is the list of pending `(src, data, timestamp)` triples in send
order. -/
structure PipeChannel where
  pending : List (Nat × List Nat × ℚ)
deriving DecidableEq

/-- `PipeChannel.__init__`: nothing pending. -/
def PipeChannel.init : PipeChannel := ⟨[]⟩

/-- `PipeChannel.send`: `self.out_.send((src, data, time.time()))`. -/
def PipeChannel.send (c : PipeChannel) (src : Nat) (data : List Nat) (now : ℚ) :
    PipeChannel :=
  ⟨c.pending ++ [(src, data, now)]⟩

/-- `PipeChannel.recv`: if `self.in_.poll()` then take the oldest pending
triple and wrap it into a `Message` tagged with the caller's `dst`,
else return `None`. -/
def PipeChannel.recv (c : PipeChannel) (dst : Nat) : Option Message × PipeChannel :=
  match c.pending with
  | [] => (none, c)
  | (src, data, ts) :: rest => (some ⟨(src : Int), dst, data, ts⟩, ⟨rest⟩)

/-- `QueueChannel`: an `mp.Queue`, i.e. an unbounded FIFO of
`(src, data, timestamp)` triples. -/
structure QueueChannel where
  q : List (Nat × List Nat × ℚ)
deriving DecidableEq

/-- `QueueChannel.__init__`: empty queue. -/
def QueueChannel.init : QueueChannel := ⟨[]⟩

/-- `QueueChannel.send`: `self.q.put((src, data, time.time()))`. -/
def QueueChannel.send (c : QueueChannel) (src : Nat) (data : List Nat) (now : ℚ) :
    QueueChannel :=
  ⟨c.q ++ [(src, data, now)]⟩

/-- `QueueChannel.recv`: `self.q.get_nowait()` returns the oldest triple or
raises (caught, returning `None` on an empty queue). -/
def QueueChannel.recv (c : QueueChannel) (dst : Nat) : Option Message × QueueChannel :=
  match c.q with
  | [] => (none, c)
  | (src, data, ts) :: rest => (some ⟨(src : Int), dst, data, ts⟩, ⟨rest⟩)

/-- Send a whole list of `(src, data, timestamp)` triples in order. -/
def QueueChannel.sendAll (c : QueueChannel) (msgs : List (Nat × List Nat × ℚ)) :
    QueueChannel :=
  msgs.foldl (fun ch m => ch.send m.1 m.2.1 m.2.2) c

/-- Perform up to `n` successive receives, collecting the returned messages
in order and stopping early at the first empty receive. -/
def QueueChannel.drainN : Nat → QueueChannel → Nat → List Message × QueueChannel
  | 0, c, _ => ([], c)
  | n + 1, c, dst =>
    match c.recv dst with
    | (none, c') => ([], c')
    | (some m, c') =>
      let r := QueueChannel.drainN n c' dst
      (m :: r.1, r.2)

/-- `SharedMemoryChannel` state: the 256-byte buffer `mp.Array('c', 256)`,
the source id `mp.Value('i', -1)`, the timestamp `mp.Value('d', 0.0)` and
the `mp.Event` flag `updated`.  The lock itself carries no data; whether
the non-blocking probe `self.lock.acquire(block=False)` in `recv` succeeds
is an explicit input of `recv`. -/
structure SharedMemoryChannel where
  buf : List Nat
  src : Int
  ts : ℚ
  updated : Bool
deriving DecidableEq

/-- `SharedMemoryChannel.__init__`: zeroed 256-byte buffer, source sentinel
`-1`, zero timestamp, `updated` clear. -/
def SharedMemoryChannel.init : SharedMemoryChannel :=
  ⟨List.replicate 256 0, -1, 0, false⟩

/-- `SharedMemoryChannel.send`: truncate the encoded payload to 255 bytes,
write it at the start of the buffer followed by one NUL byte (bytes past it
keep their previous values), record the source and timestamp, set the
`updated` flag. -/
def SharedMemoryChannel.send (c : SharedMemoryChannel) (src : Nat) (data : List Nat)
    (now : ℚ) : SharedMemoryChannel :=
  let b := data.take 255
  { buf := b ++ 0 :: c.buf.drop (b.length + 1),
    src := (src : Int), ts := now, updated := true }

/-- The read `self.buf[:].split(b'\x00', 1)[0]`: the bytes before the first
NUL (the whole buffer if it contains none). -/
def takeUntilNul (l : List Nat) : List Nat :=
  l.takeWhile fun b => decide (b ≠ 0)

/-- `SharedMemoryChannel.recv`: (1) wait up to 100ms on `updated` — in the
model the flag's current value; (2) under the lock, if the timestamp is
positive, extract the message up to the first NUL, clear timestamp and
flag, record the access in the diagnostics if present, and return it;
(3) otherwise probe the lock without blocking (`lockFree` says whether the
probe succeeds): on contention, if the stored owner is non-negative and
diagnostics is present, add a wait edge from the caller to the owner, sleep
150ms (no effect on the modelled state) and remove the edge again;
(4) return `None`. -/
def SharedMemoryChannel.recv (c : SharedMemoryChannel) (dst : Nat)
    (diag : Option Diagnostics) (lockFree : Bool) (now : ℚ) :
    Option Message × SharedMemoryChannel × Option Diagnostics :=
  if c.updated = true ∧ 0 < c.ts then
    (some ⟨c.src, dst, takeUntilNul c.buf, c.ts⟩,
     { c with ts := 0, updated := false },
     diag.map fun d => d.update_access dst now)
  else if lockFree then
    (none, c, diag)
  else
    match diag with
    | some d =>
      if 0 ≤ c.src then
        (none, c, some ((d.add_wait dst c.src.toNat).remove_wait dst))
      else
        (none, c, some d)
    | none => (none, c, none)

/-! ## Worker send step (src/worker.py) -/

/-- The destination choice of `process_worker`'s send step: `pick` is the
outcome of `random.randint(0, num_procs - 1)`; if it equals the worker's
own pid, `(pid + 1) % num_procs` is used instead. -/
def chooseDst (pid num_procs pick : Nat) : Nat :=
  if pick = pid then (pid + 1) % num_procs else pick

/-- The deadlock-demo wait cycle of claim C1's example, built through the
public `Diagnostics` interface. -/
def cycleDemo : Diagnostics :=
  ((Diagnostics.init).add_wait 2 3).add_wait 3 2

/-! ## Soundness of the deadlock search -/

theorem graphGet_nil (n : Nat) : graphGet [] n = [] := rfl

theorem lookup_cons_ne {β : Type} (k w : Nat) (s : β) (rest : List (Nat × β)) (h : w ≠ k) :
    List.lookup w ((k, s) :: rest) = List.lookup w rest := by
  have hb : (w == k) = false := beq_eq_false_iff_ne.mpr h
  simp [List.lookup, hb]

theorem lookup_cons_self {β : Type} (k : Nat) (s : β) (rest : List (Nat × β)) :
    List.lookup k ((k, s) :: rest) = some s := by
  simp [List.lookup]

theorem not_hasCycle_nil : ¬ HasCycle [] := by
  rintro ⟨a, l, hch⟩
  cases l with
  | nil =>
    rw [List.nil_append] at hch
    cases hch with
    | cons h _ => simp [Edge, graphGet_nil] at h
  | cons b l' =>
    rw [List.cons_append] at hch
    cases hch with
    | cons h _ => simp [Edge, graphGet_nil] at h

theorem edge_single {x y : Nat} (h : Edge [(5, [6])] x y) : x = 5 ∧ y = 6 := by
  by_cases hx : x = 5
  · subst hx
    simp [Edge, graphGet, List.lookup] at h
    exact ⟨rfl, h⟩
  · exfalso
    have hb : (x == 5) = false := beq_eq_false_iff_ne.mpr hx
    have hl : List.lookup x [((5 : Nat), [(6 : Nat)])] = none := by
      simp [List.lookup, hb]
    rw [Edge, graphGet, hl] at h
    exact absurd h (List.not_mem_nil y)

theorem not_hasCycle_single : ¬ HasCycle [(5, [6])] := by
  rintro ⟨a, l, hch⟩
  cases l with
  | nil =>
    rw [List.nil_append] at hch
    cases hch with
    | cons h1 _ =>
      obtain ⟨ha, hb⟩ := edge_single h1
      omega
  | cons b l' =>
    rw [List.cons_append] at hch
    cases hch with
    | cons h1 h2 =>
      obtain ⟨ha, hb⟩ := edge_single h1
      subst hb
      cases l' with
      | nil =>
        rw [List.nil_append] at h2
        cases h2 with
        | cons h3 _ =>
          obtain ⟨hc, hd⟩ := edge_single h3
          omega
      | cons c l'' =>
        rw [List.cons_append] at h2
        cases h2 with
        | cons h3 _ =>
          obtain ⟨hc, hd⟩ := edge_single h3
          omega

theorem dfsStep_foldl_sound {g : WaitGraph}
    (rec : Nat → List Nat → Option (List Nat) × List Nat) :
    ∀ (ns : List Nat) (acc : Option (List Nat) × List Nat),
      (∀ x ∈ ns, ∀ v cyc v', rec x v = (some cyc, v') → IsCycleList g cyc) →
      (∀ cyc v, acc = (some cyc, v) → IsCycleList g cyc) →
      ∀ cyc v', ns.foldl (dfsStep rec) acc = (some cyc, v') → IsCycleList g cyc := by
  intro ns
  induction ns with
  | nil =>
    intro acc _ hacc cyc v' h
    exact hacc cyc v' h
  | cons x xs ih =>
    intro acc hrec hacc cyc v' h
    rw [List.foldl_cons] at h
    refine ih (dfsStep rec acc x) (fun y hy => hrec y (List.mem_cons_of_mem _ hy)) ?_ cyc v' h
    intro c v hstep
    rcases acc with ⟨o, v0⟩
    cases o with
    | some c0 =>
      have hce : some c0 = some c := congrArg Prod.fst hstep
      have hce2 := Option.some.inj hce
      subst hce2
      exact hacc c0 v0 rfl
    | none => exact hrec x (List.mem_cons_self x xs) v0 c v hstep

theorem dfs_sound (g : WaitGraph) :
    ∀ fuel node visited path cyc v',
      List.Chain' (Edge g) (path ++ [node]) →
      dfs g fuel node visited path = (some cyc, v') →
      IsCycleList g cyc := by
  intro fuel
  induction fuel with
  | zero =>
    intro node visited path cyc v' _ h
    exact absurd h (by simp [dfs])
  | succ fuel ih =>
    intro node visited path cyc v' hchain h
    simp only [dfs] at h
    by_cases h1 : node ∈ path
    · rw [if_pos h1] at h
      have hi : path.indexOf node < path.length := List.indexOf_lt_length.2 h1
      have hd1 : (path ++ [node]).drop (path.indexOf node) =
          path.drop (path.indexOf node) ++ [node] :=
        List.drop_append_of_le_length (le_of_lt hi)
      have hc2 : List.Chain' (Edge g) (path.drop (path.indexOf node) ++ [node]) := by
        rw [← hd1]
        exact hchain.drop _
      have hd2 : path.drop (path.indexOf node) =
          node :: path.drop (path.indexOf node + 1) := by
        rw [List.drop_eq_getElem_cons hi, List.getElem_indexOf hi]
      injection h with hsome hv
      have hcyc := Option.some.inj hsome
      subst hcyc
      refine ⟨node, path.drop (path.indexOf node + 1), ?_, ?_⟩
      · rw [hd2, List.cons_append]
      · rw [hd2, List.cons_append] at hc2
        exact hc2
    · by_cases h2 : node ∈ visited
      · rw [if_neg h1, if_pos h2] at h
        exact absurd h (by simp)
      · rw [if_neg h1, if_neg h2] at h
        refine dfsStep_foldl_sound _ _ _ ?_ ?_ cyc v' h
        · intro x hx v c v'' hr
          refine ih x v (path ++ [node]) c v'' ?_ hr
          rw [List.chain'_append]
          refine ⟨hchain, List.chain'_singleton x, ?_⟩
          intro a ha y hy
          rw [List.getLast?_concat] at ha
          simp only [Option.mem_def, Option.some.injEq] at ha
          simp only [List.head?_cons, Option.mem_def, Option.some.injEq] at hy
          subst ha
          subst hy
          exact hx
        · intro c v habs
          exact absurd habs (by simp)

theorem findCycleAux_sound (g : WaitGraph) :
    ∀ roots visited cyc, findCycleAux g roots visited = some cyc → IsCycleList g cyc := by
  intro roots
  induction roots with
  | nil =>
    intro visited cyc h
    exact absurd h (by simp [findCycleAux])
  | cons n ns ih =>
    intro visited cyc h
    rw [findCycleAux] at h
    rcases hd : dfs g (totalFuel g) n visited [] with ⟨o, v⟩
    cases o with
    | some c =>
      rw [hd] at h
      have hce : c = cyc := Option.some.inj h
      subst hce
      exact dfs_sound g (totalFuel g) n visited [] c v (by simp) hd
    | none =>
      rw [hd] at h
      exact ih v cyc h

theorem deadlockAlert_eq_empty (g : WaitGraph) (h : ¬ HasCycle g) :
    deadlockAlert g = "" := by
  rcases hf : findCycle g with _ | c
  · rw [deadlockAlert, hf]
  · obtain ⟨a, t, _, hc⟩ := findCycleAux_sound g (g.map Prod.fst) [] c hf
    exact absurd ⟨a, t, hc⟩ h

theorem lookup_graphPop (g : WaitGraph) (w : Nat) : (graphPop g w).lookup w = none := by
  induction g with
  | nil => rfl
  | cons kv rest ih =>
    rcases kv with ⟨k, s⟩
    rw [graphPop, List.filter_cons]
    by_cases h : k = w
    · have hd : decide ((k, s).1 ≠ w) = false := by simp [h]
      rw [hd]
      exact ih
    · have hd : decide ((k, s).1 ≠ w) = true := by simp [h]
      rw [hd]
      have hb : (w == k) = false := beq_eq_false_iff_ne.mpr (Ne.symm h)
      have hc : List.lookup w ((k, s) :: graphPop rest w) = List.lookup w (graphPop rest w) := by
        simp [List.lookup, hb]
      rw [if_pos rfl]
      exact hc.trans ih

/-! ## Completeness of the deadlock search

`check_deadlock` runs a depth-first search from every key with a shared
`visited` set.  The classic invariant — a node is only left (blackened)
after all its neighbours have been explored, so no blackened node can
reach a cycle — shows that if the whole search returns no cycle then no
key reaches a cycle; since a node on a cycle is itself a key, a cyclic
graph always produces a cycle report. -/

theorem length_nodes (g : WaitGraph) :
    (nodes g).length = g.length + (g.map fun kv => kv.2.length).sum := by
  induction g with
  | nil => rfl
  | cons kv rest ih =>
    rcases kv with ⟨k, s⟩
    rw [nodes]
    simp [List.length_cons, List.length_append, List.map_cons, List.sum_cons, ih]
    omega

theorem mem_nodes_of_graphGet (g : WaitGraph) (x y : Nat) :
    y ∈ graphGet g x → y ∈ nodes g := by
  induction g with
  | nil =>
    intro h
    rw [graphGet_nil] at h
    exact absurd h (List.not_mem_nil y)
  | cons kv rest ih =>
    rcases kv with ⟨k, s⟩
    intro h
    by_cases hk : x = k
    · subst hk
      have hg : graphGet ((x, s) :: rest) x = s := by
        rw [graphGet.eq_def, lookup_cons_self]
      rw [hg] at h
      rw [nodes]
      exact List.mem_cons_of_mem x (List.mem_append_left _ h)
    · have hg : graphGet ((k, s) :: rest) x = graphGet rest x := by
        rw [graphGet.eq_def, graphGet.eq_def, lookup_cons_ne k x s rest hk]
      rw [hg] at h
      rw [nodes]
      exact List.mem_cons_of_mem k (List.mem_append_right s (ih h))

theorem keys_mem_nodes (g : WaitGraph) (x : Nat) :
    x ∈ g.map Prod.fst → x ∈ nodes g := by
  induction g with
  | nil =>
    intro h
    exact absurd h (List.not_mem_nil x)
  | cons kv rest ih =>
    rcases kv with ⟨k, s⟩
    intro h
    rw [List.map_cons] at h
    rw [nodes]
    rcases List.mem_cons.mp h with rfl | h2
    · exact List.mem_cons_self _ _
    · exact List.mem_cons_of_mem k (List.mem_append_right s (ih h2))

theorem mem_keys_of_edge (g : WaitGraph) (a y : Nat) :
    Edge g a y → a ∈ g.map Prod.fst := by
  induction g with
  | nil =>
    intro h
    rw [Edge, graphGet_nil] at h
    exact absurd h (List.not_mem_nil y)
  | cons kv rest ih =>
    rcases kv with ⟨k, s⟩
    intro h
    rw [List.map_cons]
    by_cases hk : a = k
    · subst hk
      exact List.mem_cons_self _ _
    · have h2 : Edge rest a y := by
        rw [Edge] at h ⊢
        rw [graphGet.eq_def, lookup_cons_ne k a s rest hk] at h
        rw [graphGet.eq_def]
        exact h
      exact List.mem_cons_of_mem _ (ih h2)

theorem chain_reach_last (g : WaitGraph) (b : Nat) (t : List Nat) (c : Nat) :
    List.Chain (Edge g) b (t ++ [c]) → Relation.ReflTransGen (Edge g) b c := by
  induction t generalizing b with
  | nil =>
    intro hc
    rw [List.nil_append] at hc
    cases hc with
    | cons h1 _ => exact Relation.ReflTransGen.single h1
  | cons d t2 ih =>
    intro hc
    rw [List.cons_append] at hc
    cases hc with
    | cons h1 h2 => exact Relation.ReflTransGen.head h1 (ih d h2)

theorem reachCyc_step (g : WaitGraph) (x : Nat) (h : ReachCyc g x) :
    ∃ y, Edge g x y ∧ ReachCyc g y := by
  obtain ⟨a, hr, l, hc⟩ := h
  rcases Relation.ReflTransGen.cases_head hr with heq | ⟨c, hxc, hca⟩
  · subst heq
    cases l with
    | nil =>
      have hc2 := hc
      rw [List.nil_append] at hc2
      cases hc2 with
      | cons h1 _ =>
        exact ⟨x, h1, x, Relation.ReflTransGen.refl, [], hc⟩
    | cons b t =>
      have hc2 := hc
      rw [List.cons_append] at hc2
      cases hc2 with
      | cons h1 h2 =>
        exact ⟨b, h1, x, chain_reach_last g b t x h2, b :: t, hc⟩
  · exact ⟨c, hxc, a, hca, l, hc⟩

theorem dfs_none_not_mem_path (g : WaitGraph) (fuel y : Nat) (v p w : List Nat)
    (hpos : 0 < fuel) (h : dfs g fuel y v p = (none, w)) : y ∉ p := by
  intro hy
  cases fuel with
  | zero => omega
  | succ fuel =>
    simp only [dfs] at h
    rw [if_pos hy] at h
    exact absurd h (by simp)

theorem dfsStep_foldl_some (rec : Nat → List Nat → Option (List Nat) × List Nat) :
    ∀ (ns : List Nat) (c : List Nat) (w : List Nat),
      ns.foldl (dfsStep rec) (some c, w) = (some c, w) := by
  intro ns
  induction ns with
  | nil =>
    intro c w
    rfl
  | cons y ys ih =>
    intro c w
    rw [List.foldl_cons]
    exact ih c w

theorem dfsN_complete_aux (g : WaitGraph) (fuel : Nat)
    (ih : ∀ node v p v',
      ((nodes g).toFinset \ v.toFinset).card < fuel →
      node ∈ nodes g →
      (∀ x ∈ v, x ∉ p → ¬ ReachCyc g x) →
      dfs g fuel node v p = (none, v') →
      (∀ x ∈ v, x ∈ v') ∧ node ∈ v' ∧ ∀ x ∈ v', x ∉ p → ¬ ReachCyc g x) :
    ∀ (ns p1 va v' : List Nat),
      (∀ y ∈ ns, y ∈ nodes g) →
      ((nodes g).toFinset \ va.toFinset).card < fuel →
      (∀ x ∈ va, x ∉ p1 → ¬ ReachCyc g x) →
      ns.foldl (dfsStep fun y w => dfs g fuel y w p1) (none, va) = (none, v') →
      (∀ x ∈ va, x ∈ v') ∧ (∀ x ∈ v', x ∉ p1 → ¬ ReachCyc g x) ∧
        ∀ y ∈ ns, y ∈ v' ∧ y ∉ p1 := by
  intro ns
  induction ns with
  | nil =>
    intro p1 va v' _ _ hsafe h
    rw [List.foldl_nil] at h
    injection h with h1 h2
    subst h2
    exact ⟨fun x hx => hx, hsafe, fun y hy => absurd hy (List.not_mem_nil y)⟩
  | cons y ys ihl =>
    intro p1 va v' hns hfuel hsafe h
    rw [List.foldl_cons] at h
    rcases hd : dfs g fuel y va p1 with ⟨o, w⟩
    cases o with
    | some c =>
      have hacc : dfsStep (fun y w => dfs g fuel y w p1) (none, va) y = (some c, w) := hd
      rw [hacc, dfsStep_foldl_some] at h
      exact absurd h (by simp)
    | none =>
      have hacc : dfsStep (fun y w => dfs g fuel y w p1) (none, va) y = (none, w) := hd
      rw [hacc] at h
      have hyn : y ∈ nodes g := hns y (List.mem_cons_self y ys)
      obtain ⟨hvaw, hyw, hsafew⟩ := ih y va p1 w hfuel hyn hsafe hd
      have hsub2 : va.toFinset ⊆ w.toFinset := fun x hx =>
        List.mem_toFinset.mpr (hvaw x (List.mem_toFinset.mp hx))
      have hfuel2 : ((nodes g).toFinset \ w.toFinset).card < fuel := by
        have hms : (nodes g).toFinset \ w.toFinset ⊆ (nodes g).toFinset \ va.toFinset :=
          Finset.sdiff_subset_sdiff (Finset.Subset.refl _) hsub2
        have hcle := Finset.card_le_card hms
        omega
      have hpos : 0 < fuel := Nat.lt_of_le_of_lt (Nat.zero_le _) hfuel
      have hynp : y ∉ p1 := dfs_none_not_mem_path g fuel y va p1 w hpos hd
      obtain ⟨hwv', hsafev', hys⟩ :=
        ihl p1 w v' (fun z hz => hns z (List.mem_cons_of_mem _ hz)) hfuel2 hsafew h
      refine ⟨fun x hx => hwv' x (hvaw x hx), hsafev', ?_⟩
      intro z hz
      rcases List.mem_cons.mp hz with hz1 | hz2
      · rw [hz1]
        exact ⟨hwv' y hyw, hynp⟩
      · exact hys z hz2

theorem dfs_complete_aux (g : WaitGraph) :
    ∀ fuel node v p v',
      ((nodes g).toFinset \ v.toFinset).card < fuel →
      node ∈ nodes g →
      (∀ x ∈ v, x ∉ p → ¬ ReachCyc g x) →
      dfs g fuel node v p = (none, v') →
      (∀ x ∈ v, x ∈ v') ∧ node ∈ v' ∧ ∀ x ∈ v', x ∉ p → ¬ ReachCyc g x := by
  intro fuel
  induction fuel with
  | zero =>
    intro node v p v' hfuel
    exact absurd hfuel (Nat.not_lt_zero _)
  | succ fuel ih =>
    intro node v p v' hfuel hnode hsafe h
    simp only [dfs] at h
    by_cases h1 : node ∈ p
    · rw [if_pos h1] at h
      exact absurd h (by simp)
    · rw [if_neg h1] at h
      by_cases h2 : node ∈ v
      · rw [if_pos h2] at h
        injection h with h3 h4
        subst h4
        exact ⟨fun x hx => hx, h2, hsafe⟩
      · rw [if_neg h2] at h
        have hnodeF : node ∈ (nodes g).toFinset := List.mem_toFinset.mpr hnode
        have hnotvF : node ∉ v.toFinset := fun hc => h2 (List.mem_toFinset.mp hc)
        have hfuel1 : ((nodes g).toFinset \ (node :: v).toFinset).card < fuel := by
          have hsub : (nodes g).toFinset \ insert node v.toFinset ⊆
              (nodes g).toFinset \ v.toFinset :=
            Finset.sdiff_subset_sdiff (Finset.Subset.refl _) (Finset.subset_insert node _)
          have hmem : node ∈ (nodes g).toFinset \ v.toFinset :=
            Finset.mem_sdiff.mpr ⟨hnodeF, hnotvF⟩
          have hnotm : node ∉ (nodes g).toFinset \ insert node v.toFinset := fun hc =>
            (Finset.mem_sdiff.mp hc).2 (Finset.mem_insert_self node _)
          have hss := (Finset.ssubset_iff_of_subset hsub).mpr ⟨node, hmem, hnotm⟩
          have hlt := Finset.card_lt_card hss
          rw [List.toFinset_cons]
          omega
        have hsafe1 : ∀ x ∈ node :: v, x ∉ p ++ [node] → ¬ ReachCyc g x := by
          intro x hx hxp1
          rcases List.mem_cons.mp hx with rfl | hxv
          · exact absurd (List.mem_append.mpr (Or.inr (List.mem_singleton.mpr rfl))) hxp1
          · exact hsafe x hxv (fun hc => hxp1 (List.mem_append.mpr (Or.inl hc)))
        obtain ⟨hvw, hsafew, hns⟩ :=
          dfsN_complete_aux g fuel ih (graphGet g node) (p ++ [node]) (node :: v) v'
            (fun y hy => mem_nodes_of_graphGet g node y hy) hfuel1 hsafe1 h
        refine ⟨fun x hx => hvw x (List.mem_cons_of_mem _ hx),
          hvw node (List.mem_cons_self _ _), ?_⟩
        intro x hxv' hxp
        by_cases hxn : x = node
        · subst hxn
          intro hrc
          obtain ⟨y, hxy, hrcy⟩ := reachCyc_step g x hrc
          obtain ⟨hyv', hyp1⟩ := hns y hxy
          exact hsafew y hyv' hyp1 hrcy
        · refine hsafew x hxv' ?_
          intro hc
          rcases List.mem_append.mp hc with hcp | hcn
          · exact hxp hcp
          · exact hxn (List.mem_singleton.mp hcn)

theorem findCycleAux_complete (g : WaitGraph) :
    ∀ (roots v : List Nat),
      (∀ x ∈ roots, x ∈ nodes g) →
      (∀ x ∈ v, ¬ ReachCyc g x) →
      findCycleAux g roots v = none →
      ∃ v' : List Nat,
        (∀ x ∈ v, x ∈ v') ∧ (∀ x ∈ roots, x ∈ v') ∧ ∀ x ∈ v', ¬ ReachCyc g x := by
  intro roots
  induction roots with
  | nil =>
    intro v _ hsafe _
    exact ⟨v, fun x hx => hx, fun x hx => absurd hx (List.not_mem_nil x), hsafe⟩
  | cons n ns ih =>
    intro v hroots hsafe h
    rw [findCycleAux] at h
    rcases hd : dfs g (totalFuel g) n v [] with ⟨o, w⟩
    cases o with
    | some c =>
      rw [hd] at h
      exact absurd h (by simp)
    | none =>
      rw [hd] at h
      have hfuel : ((nodes g).toFinset \ v.toFinset).card < totalFuel g := by
        have hc1 : ((nodes g).toFinset \ v.toFinset).card ≤ (nodes g).toFinset.card :=
          Finset.card_le_card Finset.sdiff_subset
        have hc2 : (nodes g).toFinset.card ≤ (nodes g).length := List.toFinset_card_le _
        have hc3 := length_nodes g
        rw [totalFuel]
        omega
      obtain ⟨hvw, hnw, hsafew⟩ :=
        dfs_complete_aux g (totalFuel g) n v [] w hfuel
          (hroots n (List.mem_cons_self n ns))
          (fun x hx _ => hsafe x hx) hd
      obtain ⟨v'', hw'', hns'', hsafe''⟩ :=
        ih w (fun x hx => hroots x (List.mem_cons_of_mem n hx))
          (fun x hx => hsafew x hx (List.not_mem_nil x)) h
      refine ⟨v'', fun x hx => hw'' x (hvw x hx), ?_, hsafe''⟩
      intro x hx
      rcases List.mem_cons.mp hx with hx1 | hx2
      · rw [hx1]
        exact hw'' n hnw
      · exact hns'' x hx2

theorem findCycle_ne_none (g : WaitGraph) (h : HasCycle g) : findCycle g ≠ none := by
  intro hnone
  obtain ⟨a, l, hc⟩ := h
  have hedge : ∃ y, Edge g a y := by
    cases l with
    | nil =>
      rw [List.nil_append] at hc
      cases hc with
      | cons h1 _ => exact ⟨a, h1⟩
    | cons b t =>
      rw [List.cons_append] at hc
      cases hc with
      | cons h1 _ => exact ⟨b, h1⟩
  obtain ⟨y, hy⟩ := hedge
  have ha : a ∈ g.map Prod.fst := mem_keys_of_edge g a y hy
  obtain ⟨v', hv0, hroots, hsafe⟩ :=
    findCycleAux_complete g (g.map Prod.fst) []
      (fun x hx => keys_mem_nodes g x hx)
      (fun x hx => absurd hx (List.not_mem_nil x))
      hnone
  exact hsafe a (hroots a ha) ⟨a, Relation.ReflTransGen.refl, l, hc⟩

/-! ## The reported cycle's labels appear in the alert string -/

theorem infixExtendRight {α : Type} {l₁ l₂ : List α} (l₃ : List α) (h : l₁ <:+: l₂) :
    l₁ <:+: l₂ ++ l₃ := by
  obtain ⟨s, t, rfl⟩ := h
  exact ⟨s, t ++ l₃, by simp⟩

theorem infixExtendLeft {α : Type} (l₂ : List α) {l₁ l₃ : List α} (h : l₁ <:+: l₃) :
    l₁ <:+: l₂ ++ l₃ := by
  obtain ⟨s, t, rfl⟩ := h
  exact ⟨l₂ ++ s, t, by simp⟩

theorem intercalate_go_contains (sep x : String) :
    ∀ (as : List String) (acc : String), x.data <:+: acc.data →
      x.data <:+: (String.intercalate.go acc sep as).data := by
  intro as
  induction as with
  | nil =>
    intro acc h
    exact h
  | cons a as2 ih =>
    intro acc h
    refine ih (acc ++ sep ++ a) ?_
    rw [String.data_append, String.data_append]
    exact infixExtendRight _ (infixExtendRight _ h)

theorem intercalate_go_mem_contains (sep x : String) :
    ∀ (as : List String) (acc : String), x ∈ as →
      x.data <:+: (String.intercalate.go acc sep as).data := by
  intro as
  induction as with
  | nil =>
    intro acc h
    exact absurd h (List.not_mem_nil x)
  | cons a as2 ih =>
    intro acc h
    rcases List.mem_cons.mp h with hx1 | h2
    · rw [hx1]
      refine intercalate_go_contains sep a as2 (acc ++ sep ++ a) ?_
      rw [String.data_append]
      exact infixExtendLeft _ (List.infix_refl _)
    · exact ih (acc ++ sep ++ a) h2

theorem mem_intercalate_contains (sep : String) (l : List String) (x : String) (h : x ∈ l) :
    x.data <:+: (String.intercalate sep l).data := by
  cases l with
  | nil => exact absurd h (List.not_mem_nil x)
  | cons a as =>
    rcases List.mem_cons.mp h with hx1 | h2
    · rw [hx1]
      exact intercalate_go_contains sep a as a (List.infix_refl _)
    · exact intercalate_go_mem_contains sep x as a h2

theorem cycleString_ne_empty (cyc : List Nat) : cycleString cyc ≠ "" := by
  intro h
  have h2 := congrArg String.data h
  have h3 : ("DEADLOCK: ".data ++
      (String.intercalate " → " (cyc.map fun p => "P" ++ toString p)).data
        : List Char) = [] := by
    rw [← String.data_append]
    exact h2
  exact absurd (List.append_eq_nil.mp h3).1 (by decide)

theorem cycleString_label_mem (cyc : List Nat) (p : Nat) (hp : p ∈ cyc) :
    ("P" ++ toString p).toList <:+: (cycleString cyc).toList := by
  show ("P" ++ toString p).data <:+:
    ("DEADLOCK: " ++ String.intercalate " → " (cyc.map fun q => "P" ++ toString q)).data
  rw [String.data_append]
  exact infixExtendLeft _ (mem_intercalate_contains _ _ _ (List.mem_map_of_mem _ hp))

/-- On any cyclic wait graph the search reports a genuine cycle, the alert
equals its rendering, is non-empty, and contains the label of every
participant of the reported cycle. -/
theorem deadlockAlert_of_hasCycle (g : WaitGraph) (h : HasCycle g) :
    ∃ cyc, findCycle g = some cyc ∧ IsCycleList g cyc ∧
      deadlockAlert g = cycleString cyc ∧ deadlockAlert g ≠ "" ∧
      ∀ p ∈ cyc, ("P" ++ toString p).toList <:+: (deadlockAlert g).toList := by
  rcases hfc : findCycle g with _ | cyc
  · exact absurd hfc (findCycle_ne_none g h)
  · have halert : deadlockAlert g = cycleString cyc := by
      rw [deadlockAlert, hfc]
    refine ⟨cyc, rfl, findCycleAux_sound g (g.map Prod.fst) [] cyc hfc, halert, ?_, ?_⟩
    · rw [halert]
      exact cycleString_ne_empty cyc
    · intro p hp
      rw [halert]
      exact cycleString_label_mem cyc p hp

/-! ## Buffer and queue helper lemmas -/

theorem takeUntilNul_append (b rest : List Nat) (hb : 0 ∉ b) :
    takeUntilNul (b ++ 0 :: rest) = b := by
  induction b with
  | nil => rfl
  | cons x xs ih =>
    have hx : x ≠ 0 := fun h => hb (h ▸ List.mem_cons_self x xs)
    have hxs : 0 ∉ xs := fun h => hb (List.mem_cons_of_mem x h)
    simp only [takeUntilNul, List.cons_append, List.takeWhile_cons, decide_eq_true_eq]
    rw [if_pos hx]
    exact congrArg (x :: ·) (ih hxs)

theorem takeUntilNul_append_of_mem (b rest : List Nat) (h : 0 ∈ b) :
    takeUntilNul (b ++ rest) = takeUntilNul b := by
  induction b with
  | nil => exact absurd h (List.not_mem_nil 0)
  | cons x xs ih =>
    by_cases hx : x = 0
    · subst hx
      simp [takeUntilNul, List.takeWhile_cons]
    · have hxs : 0 ∈ xs := by
        rcases List.mem_cons.mp h with h0 | h0
        · exact absurd h0.symm hx
        · exact h0
      simp only [takeUntilNul, List.cons_append, List.takeWhile_cons, decide_eq_true_eq]
      rw [if_pos hx, if_pos hx]
      exact congrArg (x :: ·) (ih hxs)

theorem takeUntilNul_ne_of_mem (l : List Nat) (h : 0 ∈ l) : takeUntilNul l ≠ l := by
  induction l with
  | nil => exact absurd h (List.not_mem_nil 0)
  | cons x xs ih =>
    by_cases hx : x = 0
    · subst hx
      simp [takeUntilNul, List.takeWhile_cons]
    · have hxs : 0 ∈ xs := by
        rcases List.mem_cons.mp h with h0 | h0
        · exact absurd h0.symm hx
        · exact h0
      simp only [takeUntilNul, List.takeWhile_cons, decide_eq_true_eq]
      rw [if_pos hx]
      intro heq
      injection heq with h1 h2
      exact ih hxs h2

theorem takeUntilNul_length_le (l : List Nat) : (takeUntilNul l).length ≤ l.length :=
  (List.takeWhile_prefix _).length_le

theorem sendAll_q (msgs : List (Nat × List Nat × ℚ)) :
    ∀ l, (QueueChannel.sendAll ⟨l⟩ msgs).q = l ++ msgs := by
  induction msgs with
  | nil => intro l; simp [QueueChannel.sendAll]
  | cons m ms ih =>
    intro l
    have h1 : QueueChannel.sendAll ⟨l⟩ (m :: ms) = QueueChannel.sendAll ⟨l ++ [m]⟩ ms := rfl
    rw [h1, ih (l ++ [m]), List.append_assoc]
    rfl

theorem drainN_exact (msgs : List (Nat × List Nat × ℚ)) :
    ∀ dst, QueueChannel.drainN msgs.length ⟨msgs⟩ dst =
      (msgs.map (fun m => ⟨(m.1 : Int), dst, m.2.1, m.2.2⟩), (⟨[]⟩ : QueueChannel)) := by
  induction msgs with
  | nil => intro dst; rfl
  | cons m ms ih =>
    intro dst
    rcases m with ⟨s, pl, t⟩
    simp [QueueChannel.drainN, QueueChannel.recv, ih dst]

/-! ## Claim theorems -/

/-- Claim C1: for every wait graph containing a cycle, the search of
`check_deadlock` reports a genuine cycle of the graph and the alert is
non-empty and contains the label `P<id>` of every participant of the
reported cycle — in particular, after `add_wait 2 3` and `add_wait 3 2`
the alert is non-empty and contains both `P2` and `P3`, and the alert
recomputed after any `add_wait` or `remove_wait` reaching a cyclic graph
is non-empty; `remove_wait` on either participant deletes all of that
waiter's outgoing edges and the re-check it performs clears the alert to
the empty string; and whenever no cycle exists across any starting node,
the recomputed alert is the empty string. -/
theorem diagnostics_cycle_alert :
    (cycleDemo.alert ≠ "" ∧
     "P2".toList <:+: cycleDemo.alert.toList ∧
     "P3".toList <:+: cycleDemo.alert.toList ∧
     (cycleDemo.remove_wait 2).wait_graph.lookup 2 = none ∧
     (cycleDemo.remove_wait 2).alert = "" ∧
     (cycleDemo.remove_wait 3).wait_graph.lookup 3 = none ∧
     (cycleDemo.remove_wait 3).alert = "") ∧
    (∀ d : Diagnostics, ∀ w : Nat, ((d.remove_wait w).wait_graph).lookup w = none) ∧
    (∀ d : Diagnostics, ∀ w o : Nat,
      ¬ HasCycle (graphAdd d.wait_graph w o) → (d.add_wait w o).alert = "") ∧
    (∀ d : Diagnostics, ∀ w : Nat,
      ¬ HasCycle (graphPop d.wait_graph w) → (d.remove_wait w).alert = "") ∧
    (∀ g : WaitGraph, HasCycle g →
      ∃ cyc, findCycle g = some cyc ∧ IsCycleList g cyc ∧
        deadlockAlert g = cycleString cyc ∧ deadlockAlert g ≠ "" ∧
        ∀ p ∈ cyc, ("P" ++ toString p).toList <:+: (deadlockAlert g).toList) ∧
    (∀ d : Diagnostics, ∀ w o : Nat,
      HasCycle (graphAdd d.wait_graph w o) → (d.add_wait w o).alert ≠ "") ∧
    (∀ d : Diagnostics, ∀ w : Nat,
      HasCycle (graphPop d.wait_graph w) → (d.remove_wait w).alert ≠ "") := by
  refine ⟨⟨by decide, by decide, by decide, by decide, by decide, by decide, by decide⟩,
    ?_, ?_, ?_, ?_, ?_, ?_⟩
  · intro d w
    exact lookup_graphPop d.wait_graph w
  · intro d w o h
    exact deadlockAlert_eq_empty _ h
  · intro d w h
    exact deadlockAlert_eq_empty _ h
  · intro g h
    exact deadlockAlert_of_hasCycle g h
  · intro d w o h
    obtain ⟨cyc, _, _, _, hne, _⟩ := deadlockAlert_of_hasCycle _ h
    exact hne
  · intro d w h
    obtain ⟨cyc, _, _, _, hne, _⟩ := deadlockAlert_of_hasCycle _ h
    exact hne

/-- Witness for C1: the acyclicity hypotheses discharged at the concrete
graphs reached by `add_wait 5 6` and `remove_wait 0` from scratch, and the
cyclicity hypothesis discharged at the two-cycle built by `add_wait 2 3`
then `add_wait 3 2`. -/
theorem diagnostics_cycle_alert_witness :
    ((Diagnostics.init).add_wait 5 6).alert = "" ∧
    ((Diagnostics.init).remove_wait 0).alert = "" ∧
    (((Diagnostics.init).add_wait 2 3).add_wait 3 2).alert ≠ "" := by
  have hcyc : HasCycle (graphAdd ((Diagnostics.init).add_wait 2 3).wait_graph 3 2) :=
    ⟨2, [3], List.Chain.cons (show (3 : Nat) ∈ graphGet [(2, [3]), (3, [2])] 2 by decide)
      (List.Chain.cons (show (2 : Nat) ∈ graphGet [(2, [3]), (3, [2])] 3 by decide)
        List.Chain.nil)⟩
  exact ⟨diagnostics_cycle_alert.2.2.1 Diagnostics.init 5 6 not_hasCycle_single,
    diagnostics_cycle_alert.2.2.2.1 Diagnostics.init 0 not_hasCycle_nil,
    diagnostics_cycle_alert.2.2.2.2.2.1 ((Diagnostics.init).add_wait 2 3) 3 2 hcyc⟩

/-- Claim C3: on a `QueueChannel`, draining after any sequence of sends
`S1..Sn` returns exactly the sent messages in send order, one per receive,
each tagged with the caller's destination id; after the drain the queue is
empty, and a receive on an empty queue returns `none` rather than
failing. -/
theorem queue_fifo_order (msgs : List (Nat × List Nat × ℚ)) (dst : Nat) :
    (QueueChannel.drainN msgs.length (QueueChannel.init.sendAll msgs) dst).1 =
      msgs.map (fun m => ⟨(m.1 : Int), dst, m.2.1, m.2.2⟩) ∧
    ((QueueChannel.drainN msgs.length (QueueChannel.init.sendAll msgs) dst).2.recv dst).1 =
      none ∧
    (QueueChannel.init.recv dst).1 = none := by
  have hq : QueueChannel.init.sendAll msgs = ⟨msgs⟩ := by
    have := sendAll_q msgs []
    rw [List.nil_append] at this
    exact congrArg QueueChannel.mk this |>.symm ▸ rfl
  rw [hq, drainN_exact msgs dst]
  exact ⟨rfl, rfl, rfl⟩

/-- Counterexample to claim C4 as stated: a `PipeChannel` is an OS pipe,
not a single slot.  After `send(1, A)` and `send(2, B)` with no
intervening receive, the first receive returns the EARLIER payload `A`
(not the later payload `B`), and a second message remains receivable. -/
theorem pipe_single_slot_counterexample :
    (((PipeChannel.init.send 1 [65] 1).send 2 [66] 2).recv 0).1 =
      some ⟨1, 0, [65], 1⟩ ∧
    (((PipeChannel.init.send 1 [65] 1).send 2 [66] 2).recv 0).1 ≠
      some ⟨2, 0, [66], 2⟩ ∧
    ((((PipeChannel.init.send 1 [65] 1).send 2 [66] 2).recv 0).2.recv 0).1 ≠ none := by
  exact ⟨rfl, by decide, by decide⟩

/-- Claim C4 as amended: a `PipeChannel` buffers messages first-in
first-out; after two sends with no intervening receive both messages are
receivable, the first receive returns the earlier payload and the second
receive the later one, and only then is the pipe empty. -/
theorem pipe_fifo_two_sends (s1 s2 : Nat) (p1 p2 : List Nat) (t1 t2 : ℚ) (dst : Nat) :
    (((PipeChannel.init.send s1 p1 t1).send s2 p2 t2).recv dst).1 =
      some ⟨(s1 : Int), dst, p1, t1⟩ ∧
    ((((PipeChannel.init.send s1 p1 t1).send s2 p2 t2).recv dst).2.recv dst).1 =
      some ⟨(s2 : Int), dst, p2, t2⟩ ∧
    (((((PipeChannel.init.send s1 p1 t1).send s2 p2 t2).recv dst).2.recv dst).2.recv dst).1 =
      none :=
  ⟨rfl, rfl, rfl⟩

/-- Claim C6: on a `PipeChannel` starting empty, a receive immediately
after a single send returns a message whose payload, source and timestamp
are the sent ones and whose destination is the caller's id; a second
consecutive receive returns nothing. -/
theorem pipe_send_recv_roundtrip (src : Nat) (data : List Nat) (t : ℚ) (dst : Nat) :
    ((PipeChannel.init.send src data t).recv dst).1 =
      some ⟨(src : Int), dst, data, t⟩ ∧
    (((PipeChannel.init.send src data t).recv dst).2.recv dst).1 = none :=
  ⟨rfl, rfl⟩

/-- Counterexample to claim C8 as stated: with a single worker
(`num_procs = 1`, so pid `0` is a worker pid in range) the random pick `0`
equals the worker's own pid and the substitute destination
`(0 + 1) % 1 = 0` again equals the worker's own pid. -/
theorem worker_dst_self_counterexample :
    chooseDst 0 1 0 = 0 ∧ (0 : Nat) < 1 := by decide

/-- Claim C8 as amended: whenever at least two processes run, the
destination the worker sends to is never its own pid, for every worker pid
in range and every outcome of the random pick. -/
theorem worker_dst_ne_self (pid n pick : Nat) (hn : 2 ≤ n) (hpid : pid < n) :
    chooseDst pid n pick ≠ pid := by
  rw [chooseDst]
  by_cases hp : pick = pid
  · rw [if_pos hp]
    rcases Nat.lt_or_ge (pid + 1) n with h | h
    · rw [Nat.mod_eq_of_lt h]
      omega
    · have he : pid + 1 = n := by omega
      rw [he, Nat.mod_self]
      omega
  · rw [if_neg hp]
    exact hp

/-- Witness for C8 as amended: two workers, worker 0 picks itself and is
redirected to worker 1. -/
theorem worker_dst_ne_self_witness : chooseDst 0 2 0 ≠ 0 :=
  worker_dst_ne_self 0 2 0 (by decide) (by decide)

/-- Helper: whenever the `updated`-and-fresh-timestamp condition fails,
`SharedMemoryChannel.recv` returns no message on every path. -/
theorem recv_fst_eq_none (c : SharedMemoryChannel) (dst : Nat) (diag : Option Diagnostics)
    (lf : Bool) (now : ℚ) (h : ¬ (c.updated = true ∧ 0 < c.ts)) :
    (c.recv dst diag lf now).1 = none := by
  rw [SharedMemoryChannel.recv.eq_def, if_neg h]
  split
  · rfl
  · split
    · split <;> rfl
    · rfl

/-- Claim C2: on a `SharedMemoryChannel`, `send(sA, A)` then `send(sB, B)`
with no intervening receive leaves exactly one receivable message, whose
payload is `B` (the earlier `A` is lost by overwrite); after the
successful receive the slot is empty and any next receive returns
nothing. -/
theorem sharedmem_overwrite_then_empty
    (sA sB : Nat) (A B : List Nat) (t1 t2 now : ℚ) (dst : Nat)
    (diag : Option Diagnostics)
    (hB : B.length ≤ 255) (hB0 : 0 ∉ B) (ht2 : 0 < t2) :
    ((((SharedMemoryChannel.init.send sA A t1).send sB B t2).recv dst diag true now).1 =
      some ⟨(sB : Int), dst, B, t2⟩) ∧
    (∀ (d2 : Option Diagnostics) (lf : Bool) (now2 : ℚ),
      (((((SharedMemoryChannel.init.send sA A t1).send sB B t2).recv dst diag true now).2.1).recv
        dst d2 lf now2).1 = none) := by
  have htake : B.take 255 = B := List.take_of_length_le hB
  have hbuf : ((SharedMemoryChannel.init.send sA A t1).send sB B t2).buf =
      B ++ 0 :: ((SharedMemoryChannel.init.send sA A t1).buf.drop (B.length + 1)) := by
    show B.take 255 ++ 0 ::
        ((SharedMemoryChannel.init.send sA A t1).buf.drop ((B.take 255).length + 1)) = _
    rw [htake]
  have hcond : ((SharedMemoryChannel.init.send sA A t1).send sB B t2).updated = true ∧
      (0 : ℚ) < ((SharedMemoryChannel.init.send sA A t1).send sB B t2).ts := ⟨rfl, ht2⟩
  have hfst : ((((SharedMemoryChannel.init.send sA A t1).send sB B t2).recv dst diag true now) =
      (some ⟨(sB : Int), dst,
        takeUntilNul (((SharedMemoryChannel.init.send sA A t1).send sB B t2).buf), t2⟩,
       { (SharedMemoryChannel.init.send sA A t1).send sB B t2 with ts := 0, updated := false },
       diag.map fun d => d.update_access dst now)) := by
    rw [SharedMemoryChannel.recv.eq_def, if_pos hcond]
    rfl
  constructor
  · rw [hfst]
    rw [hbuf, takeUntilNul_append B _ hB0]
  · intro d2 lf now2
    rw [hfst]
    exact recv_fst_eq_none _ dst d2 lf now2 (fun hx => lt_irrefl 0 hx.2)

/-- Witness for C2: concrete payloads `A = [65]`, `B = [66]` sent from
processes 1 and 2; the receive returns `B` from source 2 and the following
receive returns nothing. -/
theorem sharedmem_overwrite_then_empty_witness :
    ((((SharedMemoryChannel.init.send 1 [65] 1).send 2 [66] 2).recv 0 none true 3).1 =
      some ⟨2, 0, [66], 2⟩) ∧
    (((((SharedMemoryChannel.init.send 1 [65] 1).send 2 [66] 2).recv 0 none true 3).2.1).recv
      0 none false 4).1 = none :=
  ⟨(sharedmem_overwrite_then_empty 1 2 [65] [66] 1 2 3 0 none (by decide) (by decide)
      (by decide)).1,
   (sharedmem_overwrite_then_empty 1 2 [65] [66] 1 2 3 0 none (by decide) (by decide)
      (by decide)).2 none false 4⟩

/-- Claim C9: `send` stores at most the first 255 payload bytes followed by
a NUL terminator (the rest of the 256-byte buffer keeps its old bytes),
`recv` reads the buffer up to the first NUL, and the received payload
equals the sent one exactly when the payload is at most 255 bytes long and
contains no NUL byte; longer payloads are silently truncated, not
rejected. -/
theorem sharedmem_truncation_iff (s : Nat) (data : List Nat) (t now : ℚ) (dst : Nat)
    (diag : Option Diagnostics) (ht : 0 < t) :
    ((SharedMemoryChannel.init.send s data t).buf =
      data.take 255 ++ 0 ::
        ((List.replicate 256 (0 : Nat)).drop ((data.take 255).length + 1))) ∧
    (((SharedMemoryChannel.init.send s data t).recv dst diag true now).1 =
      some ⟨(s : Int), dst,
        takeUntilNul ((SharedMemoryChannel.init.send s data t).buf), t⟩) ∧
    (takeUntilNul ((SharedMemoryChannel.init.send s data t).buf) = data ↔
      data.length ≤ 255 ∧ 0 ∉ data) := by
  refine ⟨rfl, ?_, ?_⟩
  · rw [SharedMemoryChannel.recv.eq_def, if_pos ⟨rfl, ht⟩]
    rfl
  · have hbuf : (SharedMemoryChannel.init.send s data t).buf =
        data.take 255 ++ 0 ::
          ((List.replicate 256 (0 : Nat)).drop ((data.take 255).length + 1)) := rfl
    rw [hbuf]
    constructor
    · intro hraw
      by_cases hlen : data.length ≤ 255
      · have hb : data.take 255 = data := List.take_of_length_le hlen
        refine ⟨hlen, ?_⟩
        intro h0
        rw [hb] at hraw
        have hmem : takeUntilNul (data ++ 0 ::
            ((List.replicate 256 (0 : Nat)).drop (data.length + 1))) = takeUntilNul data :=
          takeUntilNul_append_of_mem _ _ h0
        rw [hmem] at hraw
        exact takeUntilNul_ne_of_mem data h0 hraw
      · exfalso
        have hble : (takeUntilNul (data.take 255 ++ 0 ::
            ((List.replicate 256 (0 : Nat)).drop ((data.take 255).length + 1)))).length ≤
            (data.take 255).length := by
          by_cases h0b : 0 ∈ data.take 255
          · rw [takeUntilNul_append_of_mem _ _ h0b]
            exact takeUntilNul_length_le _
          · rw [takeUntilNul_append _ _ h0b]
        rw [hraw] at hble
        rw [List.length_take] at hble
        omega
    · rintro ⟨hlen, h0⟩
      rw [List.take_of_length_le hlen]
      exact takeUntilNul_append data _ h0

/-- Witness for C9: a three-byte NUL-free payload makes a clean round
trip. -/
theorem sharedmem_truncation_iff_witness :
    takeUntilNul ((SharedMemoryChannel.init.send 1 [72, 73, 74] 1).buf) = [72, 73, 74] :=
  (sharedmem_truncation_iff 1 [72, 73, 74] 1 2 0 none (by decide)).2.2.mpr
    ⟨by decide, by decide⟩

/-! ## Wait-graph lookup lemmas for the contention path -/

theorem lookup_graphAdd_ne (g : WaitGraph) (w o w' : Nat) (h : w' ≠ w) :
    (graphAdd g w o).lookup w' = g.lookup w' := by
  induction g with
  | nil =>
    show List.lookup w' [(w, [o])] = List.lookup w' []
    rw [lookup_cons_ne w w' [o] [] h]
  | cons kv rest ih =>
    rcases kv with ⟨k, s⟩
    by_cases hk : k = w
    · have hstep : graphAdd ((k, s) :: rest) w o =
          (k, if o ∈ s then s else s ++ [o]) :: rest := by
        rw [graphAdd, if_pos hk]
      rw [hstep]
      subst hk
      rw [lookup_cons_ne k w' _ rest h, lookup_cons_ne k w' s rest h]
    · have hstep : graphAdd ((k, s) :: rest) w o = (k, s) :: graphAdd rest w o := by
        rw [graphAdd, if_neg hk]
      rw [hstep]
      by_cases hk' : w' = k
      · subst hk'
        rw [lookup_cons_self, lookup_cons_self]
      · rw [lookup_cons_ne k w' s _ hk', lookup_cons_ne k w' s rest hk']
        exact ih

theorem lookup_graphPop_ne (g : WaitGraph) (w w' : Nat) (h : w' ≠ w) :
    (graphPop g w).lookup w' = g.lookup w' := by
  induction g with
  | nil => rfl
  | cons kv rest ih =>
    rcases kv with ⟨k, s⟩
    rw [graphPop, List.filter_cons]
    by_cases hk : k = w
    · have hd : decide ((k, s).1 ≠ w) = false := by simp [hk]
      rw [hd, if_neg Bool.false_ne_true]
      subst hk
      rw [lookup_cons_ne k w' s rest (by omega)]
      exact ih
    · have hd : decide ((k, s).1 ≠ w) = true := by simp [hk]
      rw [hd, if_pos rfl]
      by_cases hk' : w' = k
      · subst hk'
        rw [lookup_cons_self, lookup_cons_self]
      · rw [lookup_cons_ne k w' s _ hk', lookup_cons_ne k w' s rest hk']
        exact ih

theorem graphGet_graphPop_self (g : WaitGraph) (w : Nat) :
    graphGet (graphPop g w) w = [] := by
  rw [graphGet.eq_def, lookup_graphPop]

theorem graphGet_graphPop_ne (g : WaitGraph) (w w' : Nat) (h : w' ≠ w) :
    graphGet (graphPop g w) w' = graphGet g w' := by
  rw [graphGet.eq_def, graphGet.eq_def, lookup_graphPop_ne g w w' h]

theorem graphGet_graphAdd_ne (g : WaitGraph) (w o w' : Nat) (h : w' ≠ w) :
    graphGet (graphAdd g w o) w' = graphGet g w' := by
  rw [graphGet.eq_def, graphGet.eq_def, lookup_graphAdd_ne g w o w' h]

/-- Claim C5: a wait edge added by `SharedMemoryChannel.recv` never
persists after the call returns.  On every path the returned diagnostics
leaves every other waiter's edges untouched and the caller's edges either
untouched or empty, and on the contention path (no valid message, lock
probe failed, owner non-negative) the returned diagnostics is exactly
`remove_wait dst` after `add_wait dst owner` — the 150ms hold is a sleep
with no effect on the modelled state — so the caller's outgoing edges are
gone before `recv` returns `none`. -/
theorem sharedmem_wait_edge_lifecycle
    (c : SharedMemoryChannel) (dst : Nat) (d : Diagnostics) (lockFree : Bool) (now : ℚ) :
    (∃ d', (c.recv dst (some d) lockFree now).2.2 = some d' ∧
      (∀ w, w ≠ dst → graphGet d'.wait_graph w = graphGet d.wait_graph w) ∧
      (graphGet d'.wait_graph dst = graphGet d.wait_graph dst ∨
        graphGet d'.wait_graph dst = [])) ∧
    (¬ (c.updated = true ∧ 0 < c.ts) → lockFree = false → 0 ≤ c.src →
      c.recv dst (some d) lockFree now =
        (none, c, some ((d.add_wait dst c.src.toNat).remove_wait dst)) ∧
      graphGet ((d.add_wait dst c.src.toNat).remove_wait dst).wait_graph dst = []) := by
  have hcontr : ∀ (h1 : ¬ (c.updated = true ∧ 0 < c.ts)) (h3 : 0 ≤ c.src),
      c.recv dst (some d) false now =
        (none, c, some ((d.add_wait dst c.src.toNat).remove_wait dst)) := by
    intro h1 h3
    rw [SharedMemoryChannel.recv.eq_def, if_neg h1, if_neg Bool.false_ne_true]
    show (if (0 : Int) ≤ c.src then
        ((none : Option Message), c, some ((d.add_wait dst c.src.toNat).remove_wait dst))
      else (none, c, some d)) = _
    rw [if_pos h3]
  constructor
  · by_cases hc : c.updated = true ∧ 0 < c.ts
    · refine ⟨d.update_access dst now, ?_, fun w _ => rfl, Or.inl rfl⟩
      rw [SharedMemoryChannel.recv.eq_def, if_pos hc]
      rfl
    · cases lockFree with
      | true =>
        refine ⟨d, ?_, fun w _ => rfl, Or.inl rfl⟩
        rw [SharedMemoryChannel.recv.eq_def, if_neg hc, if_pos rfl]
      | false =>
        by_cases hs : (0 : Int) ≤ c.src
        · refine ⟨(d.add_wait dst c.src.toNat).remove_wait dst, ?_, ?_, ?_⟩
          · rw [hcontr hc hs]
          · intro w hw
            calc graphGet ((d.add_wait dst c.src.toNat).remove_wait dst).wait_graph w
                = graphGet (graphAdd d.wait_graph dst c.src.toNat) w :=
                  graphGet_graphPop_ne _ dst w hw
              _ = graphGet d.wait_graph w := graphGet_graphAdd_ne _ dst c.src.toNat w hw
          · exact Or.inr (graphGet_graphPop_self _ dst)
        · refine ⟨d, ?_, fun w _ => rfl, Or.inl rfl⟩
          rw [SharedMemoryChannel.recv.eq_def, if_neg hc, if_neg Bool.false_ne_true]
          show (if (0 : Int) ≤ c.src then
              ((none : Option Message), c, some ((d.add_wait dst c.src.toNat).remove_wait dst))
            else (none, c, some d)).2.2 = some d
          rw [if_neg hs]
  · intro h1 h2 h3
    subst h2
    exact ⟨hcontr h1 h3, graphGet_graphPop_self _ dst⟩

/-- Witness for C5: a contended receive on a consumed channel owned by
process 1 adds and then removes the wait edge from caller 0 within the
call. -/
theorem sharedmem_wait_edge_lifecycle_witness :
    (SharedMemoryChannel.mk (List.replicate 256 0) 1 0 false).recv 0
        (some Diagnostics.init) false 0 =
      (none, SharedMemoryChannel.mk (List.replicate 256 0) 1 0 false,
        some (((Diagnostics.init).add_wait 0 1).remove_wait 0)) ∧
    graphGet (((Diagnostics.init).add_wait 0 1).remove_wait 0).wait_graph 0 = [] :=
  (sharedmem_wait_edge_lifecycle (SharedMemoryChannel.mk (List.replicate 256 0) 1 0 false)
    0 Diagnostics.init false 0).2 (by decide) rfl (by decide)

/-- Claim C10: the contention path registers a wait edge only for a
non-negative stored source id; with the sentinel still in place (no send
ever happened, `src = -1`) a contended receive returns `none` and leaves
the diagnostics untouched, so no wait edge pointing at owner `-1` is ever
created. -/
theorem sharedmem_no_wait_edge_for_sentinel
    (c : SharedMemoryChannel) (dst : Nat) (diag : Option Diagnostics) (lockFree : Bool)
    (now : ℚ) (hsrc : c.src < 0) (hcont : ¬ (c.updated = true ∧ 0 < c.ts)) :
    c.recv dst diag lockFree now = (none, c, diag) := by
  rw [SharedMemoryChannel.recv.eq_def, if_neg hcont]
  split
  · rfl
  · split
    · rw [if_neg (not_le.mpr hsrc)]
    · rfl

/-- Witness for C10: a contended receive on a freshly constructed channel
(source sentinel `-1`) with fresh diagnostics returns nothing and leaves
the diagnostics unchanged. -/
theorem sharedmem_no_wait_edge_for_sentinel_witness :
    SharedMemoryChannel.init.recv 0 (some Diagnostics.init) false 0 =
      (none, SharedMemoryChannel.init, some Diagnostics.init) :=
  sharedmem_no_wait_edge_for_sentinel SharedMemoryChannel.init 0 (some Diagnostics.init)
    false 0 (by decide) (by decide)

/-! ## Bottleneck report lemmas -/

theorem idle_ne_empty (s : String) : "Idle: " ++ s ≠ "" := by
  intro h
  have h2 := congrArg String.data h
  rw [String.data_append] at h2
  exact absurd (List.append_eq_nil.mp h2).1 (by decide)

theorem mem_bottleneckPids {d : Diagnostics} {now : ℚ} {p : Nat} :
    p ∈ bottleneckPids d now ↔ ∃ t', (p, t') ∈ d.last_access ∧ 2 < now - t' := by
  simp only [bottleneckPids, List.mem_map, List.mem_filter, decide_eq_true_eq]
  constructor
  · rintro ⟨⟨q, t'⟩, ⟨hm, hlt⟩, rfl⟩
    exact ⟨t', hm, hlt⟩
  · rintro ⟨t', hm, hlt⟩
    exact ⟨(p, t'), ⟨hm, hlt⟩, rfl⟩

theorem lookup_assocSet (l : List (Nat × ℚ)) (k : Nat) (v : ℚ) :
    (assocSet l k v).lookup k = some v := by
  induction l with
  | nil => exact lookup_cons_self k v []
  | cons kv rest ih =>
    rcases kv with ⟨k1, v1⟩
    rw [assocSet]
    by_cases hk : k1 = k
    · rw [if_pos hk, lookup_cons_self]
    · rw [if_neg hk, lookup_cons_ne k1 k v1 _ (fun h => hk h.symm)]
      exact ih

theorem mem_assocSet_eq (k : Nat) (v : ℚ) :
    ∀ (l : List (Nat × ℚ)), (l.map Prod.fst).Nodup →
      ∀ t', (k, t') ∈ assocSet l k v → t' = v := by
  intro l
  induction l with
  | nil =>
    intro _ t' hm
    have h := List.mem_singleton.mp hm
    injection h with h1 h2
  | cons kv rest ih =>
    rcases kv with ⟨k1, v1⟩
    intro hnd t' hm
    rw [List.map_cons, List.nodup_cons] at hnd
    rw [assocSet] at hm
    by_cases hk : k1 = k
    · rw [if_pos hk] at hm
      rcases List.mem_cons.mp hm with h | h
      · injection h with h1 h2
      · exfalso
        subst hk
        exact hnd.1 (List.mem_map.mpr ⟨(k1, t'), h, rfl⟩)
    · rw [if_neg hk] at hm
      rcases List.mem_cons.mp hm with h | h
      · exfalso
        injection h with h1 h2
        exact hk h1.symm
      · exact ih hnd.2 t' h

/-- Claim C7: `get_bottlenecks` lists exactly the pids whose last recorded
access is more than the fixed 2-second idle threshold before the current
time — empty string exactly when there is no such pid, and the `Idle:`
listing over precisely those pids otherwise — and `update_access` stamps
the pid with the current time, so a pid touched within the threshold does
not appear in the next report. -/
theorem bottleneck_report (d : Diagnostics) (now t : ℚ) (pid : Nat) :
    (d.get_bottlenecks now = "" ↔ bottleneckPids d now = []) ∧
    (bottleneckPids d now = [] ↔ ∀ pt ∈ d.last_access, now - pt.2 ≤ 2) ∧
    (∀ p : Nat, p ∈ bottleneckPids d now ↔
      ∃ t', (p, t') ∈ d.last_access ∧ 2 < now - t') ∧
    (bottleneckPids d now ≠ [] →
      d.get_bottlenecks now =
        "Idle: " ++ String.intercalate ", "
          ((bottleneckPids d now).map fun p => "P" ++ toString p)) ∧
    (((d.update_access pid t).last_access).lookup pid = some t) ∧
    ((d.last_access.map Prod.fst).Nodup →
      ∀ now2 : ℚ, now2 - t ≤ 2 → pid ∉ bottleneckPids (d.update_access pid t) now2) := by
  refine ⟨?_, ?_, fun p => mem_bottleneckPids, ?_, lookup_assocSet d.last_access pid t, ?_⟩
  · rcases hb : bottleneckPids d now with _ | ⟨p, ps⟩
    · rw [Diagnostics.get_bottlenecks.eq_def, hb]
      simp
    · rw [Diagnostics.get_bottlenecks.eq_def, hb]
      constructor
      · intro h
        exact absurd h (idle_ne_empty _)
      · intro h
        exact absurd h (by simp)
  · constructor
    · intro h pt hpt
      by_contra hlt
      have hf : pt ∈ d.last_access.filter (fun x => decide (2 < now - x.2)) :=
        List.mem_filter.mpr ⟨hpt, decide_eq_true (not_le.mp hlt)⟩
      have hmem : pt.1 ∈ bottleneckPids d now := List.mem_map_of_mem Prod.fst hf
      rw [h] at hmem
      exact absurd hmem (List.not_mem_nil pt.1)
    · intro h
      rw [bottleneckPids, List.map_eq_nil_iff, List.filter_eq_nil_iff]
      intro a ha
      simp only [decide_eq_true_eq]
      exact not_lt.mpr (h a ha)
  · intro hne
    have hfe : (bottleneckPids d now).isEmpty = false := by
      rcases hl : bottleneckPids d now with _ | ⟨p, ps⟩
      · exact absurd hl hne
      · rfl
    rw [Diagnostics.get_bottlenecks.eq_def, hfe, if_neg Bool.false_ne_true]
  · intro hnd now2 hle hmem
    rw [mem_bottleneckPids] at hmem
    obtain ⟨t', hm, hlt⟩ := hmem
    have ht : t' = t := mem_assocSet_eq pid t d.last_access hnd t' hm
    rw [ht] at hlt
    linarith

/-- Witness for C7: a pid stamped at time 0 is absent from the report one
second later, and is listed once ten seconds have passed. -/
theorem bottleneck_report_witness :
    ((1 : Nat) ∉ bottleneckPids ((Diagnostics.init).update_access 1 0) 1) ∧
    Diagnostics.get_bottlenecks ((Diagnostics.init).update_access 1 0) 10 =
      "Idle: " ++ String.intercalate ", "
        ((bottleneckPids ((Diagnostics.init).update_access 1 0) 10).map
          fun p => "P" ++ toString p) :=
  ⟨(bottleneck_report Diagnostics.init 1 0 1).2.2.2.2.2 (by decide) 1 (by norm_num),
   (bottleneck_report ((Diagnostics.init).update_access 1 0) 10 0 0).2.2.2.1 (by
     norm_num [bottleneckPids, Diagnostics.update_access, Diagnostics.init, assocSet,
       List.filter])⟩

end IPCTools
